import Mathlib

/-!
Verification of the `sappl` spectral-transform library (`src/sappl/transform.py`).

The Python module is a thin wrapper around `librosa`: every function forwards its
arguments to a `librosa` routine and transposes matrices between the (F, T)
orientation used internally by `librosa` and the (T, F) public contract of
`sappl`.  We shallowly embed the numeric semantics of the relevant `librosa`
routines over `ℝ` and `ℂ` (exact real arithmetic in place of IEEE floats):

* `librosa.stft` / `librosa.istft`: centered STFT with reflect padding,
  periodic Hann window, real FFT keeping `n_fft/2 + 1` bins, and overlap-add
  resynthesis normalized by the summed squared window;
* `librosa.power_to_db` / `db_to_power` / `amplitude_to_db` / `db_to_amplitude`:
  elementwise dB conversions with the `amin = 1e-10` floor (`1e-5` on
  amplitudes) and the default `top_db = 80` dynamic-range clamp;
* `librosa.magphase`: magnitude `|z|` and phase `exp(i * arg z)`;
* `librosa.feature.melspectrogram`: power spectrogram projected onto the
  Slaney-style triangular mel filterbank.

Matrices are lists of rows; `mkMat` builds the `(rows, cols)`-shaped matrix of
a generating function, mirroring how the numpy arrays are produced.
-/

open scoped BigOperators

noncomputable section

/-- Build a `rows × cols` matrix (list of rows) from a generating function. -/
def mkMat {α : Type} (rows cols : ℕ) (g : ℕ → ℕ → α) : List (List α) :=
  (List.range rows).map (fun i => (List.range cols).map (g i))

/-- Entry of a list-of-rows matrix, with default value `d` out of range. -/
def entryA {α : Type} (d : α) (M : List (List α)) (i j : ℕ) : α :=
  (M.getD i []).getD j d

/-- Number of rows of a list-of-rows matrix. -/
def rowsA {α : Type} (M : List (List α)) : ℕ := M.length

/-- Number of columns of a list-of-rows matrix (length of the first row),
matching how `librosa.istft` reads `stft_matrix.shape[-2]`. -/
def colsA {α : Type} (M : List (List α)) : ℕ := (M.headD []).length

/-- Transpose of a (rectangular) list-of-rows matrix, as performed by
numpy's `.T` on the 2-D arrays that `sappl` passes around. -/
def transposeA {α : Type} (d : α) (M : List (List α)) : List (List α) :=
  mkMat (colsA M) (rowsA M) (fun i j => entryA d M j i)

theorem rowsA_mkMat {α : Type} (rows cols : ℕ) (g : ℕ → ℕ → α) :
    rowsA (mkMat rows cols g) = rows := by
  simp [rowsA, mkMat]

theorem headD_mkMat {α : Type} {rows : ℕ} (cols : ℕ) (g : ℕ → ℕ → α)
    (h : 0 < rows) : (mkMat rows cols g).headD [] = (List.range cols).map (g 0) := by
  obtain ⟨r, rfl⟩ : ∃ r, rows = r + 1 := ⟨rows - 1, by omega⟩
  simp [mkMat, List.range_succ_eq_map]

theorem colsA_mkMat {α : Type} {rows : ℕ} (cols : ℕ) (g : ℕ → ℕ → α)
    (h : 0 < rows) : colsA (mkMat rows cols g) = cols := by
  unfold colsA
  rw [headD_mkMat cols g h, List.length_map, List.length_range]

theorem entryA_mkMat {α : Type} (d : α) {rows cols : ℕ} (g : ℕ → ℕ → α)
    {i j : ℕ} (hi : i < rows) (hj : j < cols) :
    entryA d (mkMat rows cols g) i j = g i j := by
  simp [entryA, mkMat, List.getD, List.getElem?_map, List.getElem?_range, hi, hj]

theorem mkMat_congr {α : Type} {rows cols : ℕ} {g h : ℕ → ℕ → α}
    (he : ∀ i j, i < rows → j < cols → g i j = h i j) :
    mkMat rows cols g = mkMat rows cols h := by
  unfold mkMat
  refine List.map_congr_left (fun i hi => ?_)
  refine List.map_congr_left (fun j hj => ?_)
  exact he i j (List.mem_range.mp hi) (List.mem_range.mp hj)

theorem mem_flatten_mkMat {α : Type} {rows cols : ℕ} {g : ℕ → ℕ → α} {x : α} :
    x ∈ (mkMat rows cols g).flatten ↔ ∃ i j, i < rows ∧ j < cols ∧ x = g i j := by
  constructor
  · intro hx
    obtain ⟨row, hrow, hxr⟩ := List.mem_flatten.mp hx
    obtain ⟨i, hi, rfl⟩ := List.mem_map.mp hrow
    obtain ⟨j, hj, rfl⟩ := List.mem_map.mp hxr
    exact ⟨i, j, List.mem_range.mp hi, List.mem_range.mp hj, rfl⟩
  · rintro ⟨i, j, hi, hj, rfl⟩
    refine List.mem_flatten.mpr ⟨(List.range cols).map (g i), ?_, ?_⟩
    · exact List.mem_map.mpr ⟨i, List.mem_range.mpr hi, rfl⟩
    · exact List.mem_map.mpr ⟨j, List.mem_range.mpr hj, rfl⟩

/-- Maximum of a list of reals (`numpy.max` style; `0` on the empty list,
which never occurs in the uses below). -/
def listMax : List ℝ → ℝ
  | [] => 0
  | a :: l => l.foldl max a

theorem foldl_max_le_iff {l : List ℝ} {a b : ℝ} :
    l.foldl max a ≤ b ↔ a ≤ b ∧ ∀ x ∈ l, x ≤ b := by
  induction l generalizing a with
  | nil => simp
  | cons c l ih =>
      simp only [List.foldl_cons, ih, max_le_iff, List.mem_cons]
      constructor
      · rintro ⟨⟨ha, hc⟩, hl⟩
        exact ⟨ha, fun x hx => hx.elim (fun h => h ▸ hc) (hl x)⟩
      · rintro ⟨ha, hl⟩
        exact ⟨⟨ha, hl c (Or.inl rfl)⟩, fun x hx => hl x (Or.inr hx)⟩

theorem foldl_max_mem (l : List ℝ) (a : ℝ) : l.foldl max a = a ∨ l.foldl max a ∈ l := by
  induction l generalizing a with
  | nil => simp
  | cons c l ih =>
      rcases ih (max a c) with h | h
      · rcases max_cases a c with ⟨hm, _⟩ | ⟨hm, _⟩
        · rw [hm] at h
          exact Or.inl (by rw [List.foldl_cons, hm]; exact h)
        · rw [hm] at h
          refine Or.inr ?_
          rw [List.foldl_cons, hm, h]
          exact List.mem_cons_self c l
      · refine Or.inr (List.mem_cons.mpr (Or.inr ?_))
        simpa using h

theorem le_listMax {l : List ℝ} {x : ℝ} (hx : x ∈ l) : x ≤ listMax l := by
  match l with
  | a :: l =>
      have h := (foldl_max_le_iff (l := l) (a := a) (b := listMax (a :: l))).mp le_rfl
      rcases List.mem_cons.mp hx with rfl | hmem
      · exact h.1
      · exact h.2 x hmem

theorem listMax_mem {l : List ℝ} (h : l ≠ []) : listMax l ∈ l := by
  match l with
  | a :: l =>
      rcases foldl_max_mem l a with hm | hm
      · exact List.mem_cons.mpr (Or.inl hm)
      · exact List.mem_cons.mpr (Or.inr hm)

theorem listMax_le {l : List ℝ} {b : ℝ} (h : l ≠ []) (hb : ∀ x ∈ l, x ≤ b) :
    listMax l ≤ b :=
  hb _ (listMax_mem h)

end

noncomputable section

open Complex in
/-- The primitive `n`-th root of unity `exp(2πi/n)` underlying the FFT. -/
def zetaN (n : ℕ) : ℂ := Complex.exp (2 * Real.pi * I / n)

theorem zetaN_ne_zero (n : ℕ) : zetaN n ≠ 0 := Complex.exp_ne_zero _

theorem zetaN_zpow (n : ℕ) (m : ℤ) :
    zetaN n ^ m = Complex.exp ((m : ℂ) * (2 * Real.pi * Complex.I / n)) :=
  (Complex.exp_int_mul _ m).symm

theorem zetaN_pow_self (n : ℕ) (hn : n ≠ 0) : zetaN n ^ (n : ℤ) = 1 := by
  rw [zetaN_zpow]
  have hc : (n : ℂ) ≠ 0 := Nat.cast_ne_zero.mpr hn
  rw [show (((n : ℤ)) : ℂ) * (2 * Real.pi * Complex.I / n) = 2 * Real.pi * Complex.I by
    push_cast
    field_simp]
  exact Complex.exp_two_pi_mul_I

theorem zetaN_zpow_conj (n : ℕ) (m : ℤ) :
    (starRingEnd ℂ) (zetaN n ^ m) = zetaN n ^ (-m) := by
  rw [zetaN_zpow, zetaN_zpow, ← Complex.exp_conj]
  congr 1
  simp [map_mul, map_div₀, Complex.conj_I, map_ofNat]
  ring

/-- Discrete Fourier transform of the first `n` samples of `x` at bin `k`,
`X[k] = Σ_j x[j]·exp(-2πi·k·j/n)`, as computed by `numpy.fft.rfft` for
`k ≤ n/2`. -/
def dft (x : ℕ → ℂ) (n k : ℕ) : ℂ :=
  ∑ j ∈ Finset.range n, x j * Complex.exp (-(2 * Real.pi * (k * j) / n) * Complex.I)

theorem exp_neg_eq_zetaN (n k j : ℕ) :
    Complex.exp (-(2 * Real.pi * (k * j) / n) * Complex.I)
      = zetaN n ^ (-((k : ℤ) * j)) := by
  rw [zetaN_zpow]
  congr 1
  push_cast
  ring

theorem exp_pos_eq_zetaN (n k m : ℕ) :
    Complex.exp ((2 * Real.pi * (k * m) / n) * Complex.I)
      = zetaN n ^ ((k : ℤ) * m) := by
  rw [zetaN_zpow]
  congr 1
  push_cast
  ring

theorem sum_zetaN_zpow (n : ℕ) (hn : n ≠ 0) (d : ℤ) :
    ∑ k ∈ Finset.range n, (zetaN n ^ d) ^ k = if (n : ℤ) ∣ d then (n : ℂ) else 0 := by
  by_cases hdvd : (n : ℤ) ∣ d
  · have h1 : zetaN n ^ d = 1 :=
      ((Complex.isPrimitiveRoot_exp n hn).zpow_eq_one_iff_dvd d).mpr hdvd
    simp [h1, hdvd]
  · have h1 : zetaN n ^ d ≠ 1 := fun h =>
      hdvd (((Complex.isPrimitiveRoot_exp n hn).zpow_eq_one_iff_dvd d).mp h)
    rw [geom_sum_eq h1]
    have h2 : (zetaN n ^ d) ^ n = 1 := by
      rw [← zpow_natCast (zetaN n ^ d) n, ← zpow_mul, mul_comm, zpow_mul,
        zetaN_pow_self n hn, one_zpow]
    simp [hdvd, h2]

theorem dft_inversion (x : ℕ → ℂ) (n : ℕ) (hn : n ≠ 0) (m : ℕ) (hm : m < n) :
    (1 / n : ℂ) * ∑ k ∈ Finset.range n,
      dft x n k * Complex.exp ((2 * Real.pi * (k * m) / n) * Complex.I) = x m := by
  have key : ∑ k ∈ Finset.range n,
      dft x n k * Complex.exp ((2 * Real.pi * (k * m) / n) * Complex.I)
      = (n : ℂ) * x m := by
    unfold dft
    calc ∑ k ∈ Finset.range n, (∑ j ∈ Finset.range n,
            x j * Complex.exp (-(2 * Real.pi * (k * j) / n) * Complex.I))
              * Complex.exp ((2 * Real.pi * (k * m) / n) * Complex.I)
        = ∑ j ∈ Finset.range n, ∑ k ∈ Finset.range n,
            x j * (zetaN n ^ ((m : ℤ) - j)) ^ k := by
          rw [Finset.sum_comm]
          refine Finset.sum_congr rfl (fun k _ => ?_)
          rw [Finset.sum_mul]
          refine Finset.sum_congr rfl (fun j _ => ?_)
          rw [exp_neg_eq_zetaN, exp_pos_eq_zetaN, mul_assoc, ← zpow_add₀ (zetaN_ne_zero n)]
          congr 1
          rw [← zpow_natCast (zetaN n ^ ((m : ℤ) - j)) k, ← zpow_mul]
          congr 1
          ring
      _ = ∑ j ∈ Finset.range n, x j * (if (n : ℤ) ∣ ((m : ℤ) - j) then (n : ℂ) else 0) := by
          refine Finset.sum_congr rfl (fun j _ => ?_)
          rw [← Finset.mul_sum, sum_zetaN_zpow n hn]
      _ = (n : ℂ) * x m := by
          rw [Finset.sum_eq_single m]
          · simp
            ring
          · intro j hj hjm
            have hjn : j < n := Finset.mem_range.mp hj
            have : ¬ (n : ℤ) ∣ ((m : ℤ) - j) := by
              intro hdvd
              have habs : |(m : ℤ) - j| < (n : ℤ) := by
                rw [abs_sub_lt_iff]
                omega
              have := Int.eq_zero_of_abs_lt_dvd hdvd habs
              omega
            simp [this]
          · intro hmem
            exact absurd (Finset.mem_range.mpr hm) hmem
  rw [key]
  have hc : (n : ℂ) ≠ 0 := Nat.cast_ne_zero.mpr hn
  field_simp

theorem dft_conj_real (x : ℕ → ℝ) (n : ℕ) (hn : n ≠ 0) (k : ℕ) (hk : k ≤ n) :
    (starRingEnd ℂ) (dft (fun j => (x j : ℂ)) n (n - k)) = dft (fun j => (x j : ℂ)) n k := by
  unfold dft
  rw [map_sum]
  refine Finset.sum_congr rfl (fun j hj => ?_)
  rw [exp_neg_eq_zetaN, exp_neg_eq_zetaN, map_mul, Complex.conj_ofReal, zetaN_zpow_conj]
  congr 1
  have hcast : ((n - k : ℕ) : ℤ) = (n : ℤ) - k := by omega
  rw [hcast, neg_neg, sub_mul, zpow_sub₀ (zetaN_ne_zero n), zpow_mul,
    zetaN_pow_self n hn, one_zpow, zpow_neg]
  exact one_div _

/-- Inverse real FFT from the half spectrum `X[0..n/2]`, as computed by
`numpy.fft.irfft`: the spectrum is mirrored by conjugate symmetry
(`X[n-k] = conj X[k]`), inverse-transformed with `1/n` normalization, and the
real part is taken. -/
def irfftHalf (X : ℕ → ℂ) (n m : ℕ) : ℝ :=
  ((1 / n : ℂ) * ∑ k ∈ Finset.range n,
      (if k < n / 2 + 1 then X k else (starRingEnd ℂ) (X (n - k)))
        * Complex.exp ((2 * Real.pi * (k * m) / n) * Complex.I)).re

theorem irfft_dft_real (x : ℕ → ℝ) (n : ℕ) (hn : n ≠ 0) (X : ℕ → ℂ)
    (hX : ∀ f, f < n / 2 + 1 → X f = dft (fun j => (x j : ℂ)) n f)
    (m : ℕ) (hm : m < n) : irfftHalf X n m = x m := by
  unfold irfftHalf
  have hfull : ∀ k ∈ Finset.range n,
      (if k < n / 2 + 1 then X k else (starRingEnd ℂ) (X (n - k)))
        * Complex.exp ((2 * Real.pi * (k * m) / n) * Complex.I)
      = dft (fun j => (x j : ℂ)) n k
        * Complex.exp ((2 * Real.pi * (k * m) / n) * Complex.I) := by
    intro k hkr
    have hkn : k < n := Finset.mem_range.mp hkr
    by_cases hk : k < n / 2 + 1
    · rw [if_pos hk, hX k hk]
    · rw [if_neg hk]
      have hnk : n - k < n / 2 + 1 := by omega
      rw [hX (n - k) hnk]
      have hsub : n - (n - k) = k := by omega
      rw [show (starRingEnd ℂ) (dft (fun j => (x j : ℂ)) n (n - k))
            = dft (fun j => (x j : ℂ)) n k from by
        have := dft_conj_real x n hn k (le_of_lt hkn)
        exact this]
  rw [Finset.sum_congr rfl hfull, dft_inversion (fun j => (x j : ℂ)) n hn m hm]
  exact Complex.ofReal_re _

end

noncomputable section

/-- Periodic Hann window of length `n` used by `librosa.stft`/`istft`
(scipy `get_window("hann", n, fftbins=True)`): `w[k] = 0.5 - 0.5·cos(2πk/n)`. -/
def hannW (n k : ℕ) : ℝ := 1 / 2 - 1 / 2 * Real.cos (2 * Real.pi * k / n)

/-- Index into a length-`L` signal after numpy reflect-padding by `p` samples
on each side (single reflection, the regime `p < L` exercised here). -/
def reflectIdx (L p j : ℕ) : ℕ :=
  if j < p then p - j else if j - p < L then j - p else 2 * (L - 1) - (j - p)

/-- Sample `j` of the reflect-padded signal (`librosa.stft` centering pads by
`n_fft/2` on each side with the default `pad_mode="reflect"`). -/
def paddedVal (y : List ℝ) (p j : ℕ) : ℝ := y.getD (reflectIdx y.length p j) 0

/-- Windowed analysis frame `t` of the centered signal:
`w[k] · y_padded[t·hop + k]`. -/
def wframe (y : List ℝ) (n hop t k : ℕ) : ℝ :=
  hannW n k * paddedVal y (n / 2) (t * hop + k)

/-- Frame count of the centered STFT: librosa frames the padded signal of
length `L + 2·(n_fft/2)` into `1 + (len_padded - n_fft)/hop` frames. -/
def numFrames (L n hop : ℕ) : ℕ := 1 + (L + 2 * (n / 2) - n) / hop

/-- `sappl.transform.stft`: `librosa.stft(y, n_fft, hop_length).T`, a
`(T, n_fft/2 + 1)` complex matrix of windowed-frame DFT bins. -/
def stftMatrix (y : List ℝ) (n hop : ℕ) : List (List ℂ) :=
  mkMat (numFrames y.length n hop) (n / 2 + 1)
    (fun t f => dft (fun k => (wframe y n hop t k : ℂ)) n f)

/-- Squared-window overlap-add normalization (librosa `window_sumsquare`). -/
def wssF (n hop T m : ℕ) : ℝ :=
  ∑ t ∈ Finset.range T,
    if t * hop ≤ m ∧ m - t * hop < n then hannW n (m - t * hop) ^ 2 else 0

/-- Overlap-add buffer of the windowed inverse-FFT frames of `librosa.istft`. -/
def olaBuf (M : List (List ℂ)) (n hop T m : ℕ) : ℝ :=
  ∑ t ∈ Finset.range T,
    if t * hop ≤ m ∧ m - t * hop < n then
      hannW n (m - t * hop) * irfftHalf (fun f => entryA 0 M t f) n (m - t * hop)
    else 0

/-- `sappl.transform.istft`: `librosa.istft(stft_matrix.T, hop_length)`.
`n_fft` is inferred as `2·(F-1)` from the transposed matrix, each frame is
inverse-FFT'd, windowed and overlap-added, the buffer is divided by the summed
squared window where that sum is nonzero, and `n_fft/2` samples are trimmed
from each side (centered convention), leaving `hop·(T-1)` samples. -/
def istftList (M : List (List ℂ)) (hop : ℕ) : List ℝ :=
  (List.range (2 * (colsA M - 1) + hop * (rowsA M - 1)
      - 2 * (2 * (colsA M - 1) / 2))).map (fun i =>
    if wssF (2 * (colsA M - 1)) hop (rowsA M) (i + 2 * (colsA M - 1) / 2) = 0 then
      olaBuf M (2 * (colsA M - 1)) hop (rowsA M) (i + 2 * (colsA M - 1) / 2)
    else
      olaBuf M (2 * (colsA M - 1)) hop (rowsA M) (i + 2 * (colsA M - 1) / 2)
        / wssF (2 * (colsA M - 1)) hop (rowsA M) (i + 2 * (colsA M - 1) / 2))

/-- Error condition surfaced to callers for invalid transform parameters. -/
inductive SapplError : Type where
  | invalidParameter : SapplError
deriving DecidableEq

/-- Modelled from the spec: the parameter validation of the underlying
`librosa.stft` routine, which `sappl.transform.stft` forwards its arguments to
unchanged (the librosa source is not part of this repository).  Non-positive
`n_fft` or `hop_length`, or a `win_length` exceeding `n_fft`, fail with an
`InvalidParameter` condition before any output is produced; valid parameters
produce the STFT matrix. -/
def sapplStftChecked (y : List ℝ) (n_fft hop_length : ℤ) (win_length : Option ℤ) :
    Except SapplError (List (List ℂ)) :=
  if n_fft ≤ 0 ∨ hop_length ≤ 0 ∨ win_length.getD n_fft > n_fft then
    .error .invalidParameter
  else
    .ok (stftMatrix y n_fft.toNat hop_length.toNat)

theorem rowsA_stftMatrix (y : List ℝ) (n hop : ℕ) :
    rowsA (stftMatrix y n hop) = numFrames y.length n hop :=
  rowsA_mkMat _ _ _

theorem numFrames_pos (L n hop : ℕ) : 0 < numFrames L n hop :=
  Nat.lt_of_lt_of_le Nat.zero_lt_one (Nat.le_add_right 1 _)

theorem colsA_stftMatrix (y : List ℝ) (n hop : ℕ) :
    colsA (stftMatrix y n hop) = n / 2 + 1 :=
  colsA_mkMat _ _ (numFrames_pos _ _ _)

end

noncomputable section

theorem hannW_pos (n k : ℕ) (hk0 : 0 < k) (hkn : k < n) : 0 < hannW n k := by
  unfold hannW
  have hn0 : (0 : ℝ) < n := Nat.cast_pos.mpr (lt_of_le_of_lt (Nat.zero_le _) hkn)
  have hθpos : 0 < 2 * Real.pi * k / n := by
    apply div_pos _ hn0
    have : (0 : ℝ) < k := Nat.cast_pos.mpr hk0
    nlinarith [Real.two_pi_pos]
  have hθlt : 2 * Real.pi * k / n < 2 * Real.pi := by
    rw [div_lt_iff₀ hn0]
    have hkr : (k : ℝ) < n := Nat.cast_lt.mpr hkn
    nlinarith [Real.two_pi_pos]
  have hne : Real.cos (2 * Real.pi * k / n) ≠ 1 := by
    intro heq
    have := (Real.cos_eq_one_iff_of_lt_of_lt (by linarith) hθlt).mp heq
    linarith
  have hle : Real.cos (2 * Real.pi * k / n) ≤ 1 := Real.cos_le_one _
  have hlt := lt_of_le_of_ne hle hne
  linarith

theorem stftMatrix_entry (y : List ℝ) (n hop : ℕ) {t f : ℕ}
    (ht : t < numFrames y.length n hop) (hf : f < n / 2 + 1) :
    entryA 0 (stftMatrix y n hop) t f
      = dft (fun k => (wframe y n hop t k : ℂ)) n f :=
  entryA_mkMat 0 _ ht hf

theorem irfft_stft_frame (y : List ℝ) (n hop : ℕ) (hn : n ≠ 0) {t k : ℕ}
    (ht : t < numFrames y.length n hop) (hk : k < n) :
    irfftHalf (fun f => entryA 0 (stftMatrix y n hop) t f) n k
      = wframe y n hop t k := by
  refine irfft_dft_real (wframe y n hop t) n hn _ (fun f hf => ?_) k hk
  exact stftMatrix_entry y n hop ht hf

theorem olaBuf_stft (y : List ℝ) (n hop : ℕ) (hn : n ≠ 0) (m : ℕ) :
    olaBuf (stftMatrix y n hop) n hop (numFrames y.length n hop) m
      = wssF n hop (numFrames y.length n hop) m * paddedVal y (n / 2) m := by
  unfold olaBuf wssF
  rw [Finset.sum_mul]
  refine Finset.sum_congr rfl (fun t htr => ?_)
  have ht : t < numFrames y.length n hop := Finset.mem_range.mp htr
  by_cases hc : t * hop ≤ m ∧ m - t * hop < n
  · rw [if_pos hc, if_pos hc, irfft_stft_frame y n hop hn ht hc.2]
    unfold wframe
    have harg : t * hop + (m - t * hop) = m := by omega
    rw [harg]
    ring
  · rw [if_neg hc, if_neg hc, zero_mul]

theorem wssF_pos (n hop T m : ℕ) (hhop : 0 < hop) (hhn : hop ≤ n / 2) (hT : 0 < T)
    (hml : n / 2 ≤ m) (hmu : m < n / 2 + hop * (T - 1)) : 0 < wssF n hop T m := by
  have hn2 : 2 ≤ n := by omega
  -- choose the latest frame covering position m with a strictly interior
  -- window index
  obtain ⟨t₁, ht₁T, hk0, hkn, hle⟩ :
      ∃ t₁, t₁ < T ∧ 0 < m - t₁ * hop ∧ m - t₁ * hop < n ∧ t₁ * hop ≤ m := by
    have hm1 : 0 < m := by omega
    set q := (m - 1) / hop with hq
    have hqm : hop * q + (m - 1) % hop = m - 1 := Nat.div_add_mod (m - 1) hop
    have hrlt : (m - 1) % hop < hop := Nat.mod_lt _ hhop
    by_cases hcase : q ≤ T - 1
    · refine ⟨q, by omega, ?_, ?_, ?_⟩ <;>
        (rw [Nat.mul_comm q hop]; omega)
    · have hTq : T - 1 + 1 ≤ q := by omega
      have hmul : hop * (T - 1) + hop ≤ hop * q := by
        have h := Nat.mul_le_mul_left (k := hop) hTq
        rw [Nat.mul_succ] at h
        exact h
      refine ⟨T - 1, by omega, ?_, ?_, ?_⟩ <;>
        (rw [Nat.mul_comm (T - 1) hop]; omega)
  refine Finset.sum_pos' (fun t _ => ?_) ⟨t₁, Finset.mem_range.mpr ht₁T, ?_⟩
  · by_cases hc : t * hop ≤ m ∧ m - t * hop < n
    · rw [if_pos hc]
      positivity
    · rw [if_neg hc]
  · rw [if_pos ⟨hle, hkn⟩]
    have := hannW_pos n (m - t₁ * hop) hk0 hkn
    positivity

end

noncomputable section

/-- C1 (amended): for an even `n_fft`, a hop length with `0 < hop ≤ n_fft/2`,
and an input whose length is an exact multiple of `hop_length`,
`istft(stft(audio, n_fft, hop_length), hop_length)` reconstructs `audio`
exactly (zero error in exact arithmetic), the complex spectrum being passed
through unmodified.  In general the composition returns exactly the first
`hop·⌊L/hop⌋` samples of the input, so when `hop ∤ L` (e.g. the spec's
1-second 16 kHz sine, `L = 16000`, `hop = 512`) the final `L mod hop`
samples are dropped and the output is not the original signal. -/
theorem stft_istft_exact (y : List ℝ) (n hop : ℕ) (h2 : 2 ∣ n) (hhop : 0 < hop)
    (hhn : hop ≤ n / 2) (hdvd : hop ∣ y.length) :
    istftList (stftMatrix y n hop) hop = y := by
  have hn2 : 2 ≤ n := by omega
  have hn0 : n ≠ 0 := by omega
  set L := y.length with hL
  have hrows : rowsA (stftMatrix y n hop) = numFrames L n hop := rowsA_stftMatrix y n hop
  have hcols : colsA (stftMatrix y n hop) = n / 2 + 1 := colsA_stftMatrix y n hop
  have hnn : 2 * (colsA (stftMatrix y n hop) - 1) = n := by rw [hcols]; omega
  have hTL : numFrames L n hop - 1 = L / hop := by
    have harg : L + 2 * (n / 2) - n = L := by omega
    unfold numFrames
    rw [harg, Nat.add_sub_cancel_left]
  have hlen : hop * (numFrames L n hop - 1) = L := by
    rw [hTL]
    exact Nat.mul_div_cancel' hdvd
  have hlen2 : n + hop * (numFrames L n hop - 1) - 2 * (n / 2) = L := by
    rw [hlen]
    omega
  unfold istftList
  rw [hnn, hrows, hlen2]
  refine List.ext_getElem ?_ (fun i h1 h2x => ?_)
  · simp [hL]
  · have hiL : i < L := by simpa using h1
    simp only [List.getElem_map, List.getElem_range]
    have hwss : 0 < wssF n hop (numFrames L n hop) (i + n / 2) := by
      refine wssF_pos n hop _ _ hhop hhn (numFrames_pos _ _ _) (by omega) ?_
      rw [hlen]
      omega
    rw [if_neg (ne_of_gt hwss), olaBuf_stft y n hop hn0 (i + n / 2),
      mul_comm, mul_div_assoc, div_self (ne_of_gt hwss), mul_one]
    unfold paddedVal reflectIdx
    have hc1 : ¬ (i + n / 2 < n / 2) := by omega
    have hc2 : i + n / 2 - n / 2 < y.length := by omega
    rw [if_neg hc1, if_pos hc2]
    have hidx : i + n / 2 - n / 2 = i := by omega
    rw [hidx]
    exact List.getD_eq_getElem y 0 (by omega)

end

noncomputable section

/-- The spec's concrete round-trip input: a 1-second 16 kHz sine wave at
440 Hz (16000 samples). -/
def sine440 : List ℝ :=
  (List.range 16000).map (fun i : ℕ => Real.sin (2 * Real.pi * 440 * (i : ℝ) / 16000))

theorem sine440_length : sine440.length = 16000 := by
  unfold sine440
  rw [List.length_map, List.length_range]

/-- C1 (counterexample): on the spec's own concrete case (1-second 16 kHz
sine, `n_fft = 2048`, `hop_length = 512`), `istft(stft(audio))` is not the
original audio: it has `512·31 = 15872` samples while the input has `16000`
(the trailing `16000 mod 512 = 128` samples are dropped), so the claimed
reconstruction of the original signal fails. -/
theorem istft_stft_sine440_not_original :
    istftList (stftMatrix sine440 2048 512) 512 ≠ sine440 := by
  intro h
  have hlen := congrArg List.length h
  have h1 : (istftList (stftMatrix sine440 2048 512) 512).length = 15872 := by
    unfold istftList
    rw [List.length_map, List.length_range, colsA_stftMatrix, rowsA_stftMatrix,
      sine440_length]
    norm_num [numFrames]
  rw [h1, sine440_length] at hlen
  norm_num at hlen

/-- C1 (witness): the amended round-trip theorem applied to the concrete
signal `[1, 0]` with `n_fft = 4`, `hop_length = 2` (length `2` is an exact
multiple of the hop). -/
theorem stft_istft_exact_witness :
    istftList (stftMatrix [(1 : ℝ), 0] 4 2) 2 = [(1 : ℝ), 0] :=
  stft_istft_exact [(1 : ℝ), 0] 4 2 (by decide) (by decide) (by decide) (by decide)

/-- C2: for any input of length `L` and valid `n_fft`, `hop_length`, the
`sappl` STFT matrix has shape `(T, n_fft/2 + 1)` — time-major with exactly
`n_fft/2 + 1` frequency bins — where the frame count is the deterministic
formula `T = 1 + (L + 2·(n_fft/2) - n_fft) / hop_length` (equal to
`1 + ⌊L/hop⌋` for even `n_fft`). -/
theorem stft_shape (y : List ℝ) (n hop : ℕ) (_hn : 0 < n) (_hhop : 0 < hop) :
    (stftMatrix y n hop).length = 1 + (y.length + 2 * (n / 2) - n) / hop ∧
    ∀ row ∈ stftMatrix y n hop, row.length = n / 2 + 1 := by
  constructor
  · simp [stftMatrix, mkMat, numFrames]
  · intro row hrow
    obtain ⟨t, ht, rfl⟩ := List.mem_map.mp hrow
    simp

/-- C2 (witness): the shape law at a concrete one-sample signal with the
default `n_fft = 2048`, `hop_length = 512`. -/
theorem stft_shape_witness :
    (stftMatrix [(0 : ℝ)] 2048 512).length
        = 1 + ([(0 : ℝ)].length + 2 * (2048 / 2) - 2048) / 512 ∧
    ∀ row ∈ stftMatrix [(0 : ℝ)] 2048 512, row.length = 2048 / 2 + 1 :=
  stft_shape [(0 : ℝ)] 2048 512 (by norm_num) (by norm_num)

/-- C8: `stft` fails with an `InvalidParameter` condition — and only then —
exactly when `n_fft ≤ 0`, `hop_length ≤ 0`, or `win_length > n_fft`; invalid
values are never silently corrected into a successful result. -/
theorem stft_invalid_params (y : List ℝ) (n_fft hop_length : ℤ) (wl : Option ℤ) :
    sapplStftChecked y n_fft hop_length wl = .error .invalidParameter
      ↔ (n_fft ≤ 0 ∨ hop_length ≤ 0 ∨ wl.getD n_fft > n_fft) := by
  unfold sapplStftChecked
  by_cases h : n_fft ≤ 0 ∨ hop_length ≤ 0 ∨ wl.getD n_fft > n_fft
  · simp [h]
  · simp [h]

end

noncomputable section

/-- librosa's floor constant `amin = 1e-10` used by `power_to_db` (and by
`amplitude_to_db` as `amin**2` with `amin = 1e-5`). -/
def aminP : ℝ := 1e-10

/-- librosa's default dynamic-range clamp `top_db = 80`. -/
def topDb : ℝ := 80

/-- Elementwise dB value of `librosa.power_to_db` before the dynamic-range
clamp: `10·log10(max(amin, |p|)) - 10·log10(max(amin, ref_value))`, where
`ref_value` is the already-resolved non-negative reference. -/
def dbEnt (p refv : ℝ) : ℝ :=
  10 * Real.logb 10 (max aminP |p|) - 10 * Real.logb 10 (max aminP refv)

/-- `librosa.power_to_db(S, ref_value, amin=1e-10, top_db=80)`: elementwise
dB, then every entry is clamped to at least `(matrix max dB) - top_db`. -/
def librosaPowerToDb (S : List (List ℝ)) (refv : ℝ) : List (List ℝ) :=
  mkMat (rowsA S) (colsA S) (fun i j =>
    max (dbEnt (entryA 0 S i j) refv)
      (listMax ((mkMat (rowsA S) (colsA S)
        (fun a b => dbEnt (entryA 0 S a b) refv)).flatten) - topDb))

/-- `sappl.transform.power_to_db`: `librosa.power_to_db(S.T, ref=ref).T`
(librosa resolves a scalar reference as `ref_value = |ref|`). -/
def sapplPowerToDb (S : List (List ℝ)) (ref : ℝ) : List (List ℝ) :=
  transposeA 0 (librosaPowerToDb (transposeA 0 S) |ref|)

/-- `sappl.transform.db_to_power`: `librosa.db_to_power(S_db, ref) =
ref · 10^(S_db/10)`, elementwise (no transposition in the source). -/
def sapplDbToPower (S : List (List ℝ)) (ref : ℝ) : List (List ℝ) :=
  mkMat (rowsA S) (colsA S) (fun i j => ref * (10 : ℝ) ^ (entryA 0 S i j / 10))

/-- `librosa.amplitude_to_db(S, ref_value, amin=1e-5, top_db=80)`:
`power_to_db(|S|², ref=ref_value², amin=1e-10, top_db=80)`. -/
def librosaAmpToDb (S : List (List ℝ)) (refv : ℝ) : List (List ℝ) :=
  librosaPowerToDb (mkMat (rowsA S) (colsA S) (fun i j => |entryA 0 S i j| ^ 2))
    (refv ^ 2)

/-- `sappl.transform.amplitude_to_db`: `librosa.amplitude_to_db(S.T, ref).T`. -/
def sapplAmplitudeToDb (S : List (List ℝ)) (ref : ℝ) : List (List ℝ) :=
  transposeA 0 (librosaAmpToDb (transposeA 0 S) |ref|)

/-- `sappl.transform.db_to_amplitude`:
`librosa.db_to_amplitude(S_db, ref) = (ref² · 10^(S_db/10))^0.5`. -/
def sapplDbToAmplitude (S : List (List ℝ)) (ref : ℝ) : List (List ℝ) :=
  mkMat (rowsA S) (colsA S) (fun i j =>
    Real.sqrt (ref ^ 2 * (10 : ℝ) ^ (entryA 0 S i j / 10)))

end

noncomputable section

/-- librosa `hz_to_mel` (Slaney, `htk=False`): linear below 1000 Hz with
slope `3/200`, logarithmic above with step `log(6.4)/27`. -/
def hzToMel (f : ℝ) : ℝ :=
  if 1000 ≤ f then 15 + Real.log (f / 1000) / (Real.log 6.4 / 27) else f / (200 / 3)

/-- librosa `mel_to_hz` (Slaney), inverse of `hzToMel`. -/
def melToHz (m : ℝ) : ℝ :=
  if 15 ≤ m then 1000 * Real.exp ((Real.log 6.4 / 27) * (m - 15)) else (200 / 3) * m

/-- librosa `mel_frequencies(n_mels + 2, fmin, fmax)`: `n_mels + 2` points
evenly spaced on the mel scale between `fmin` and `fmax`. -/
def melPoints (nm : ℕ) (fmin fmax : ℝ) (i : ℕ) : ℝ :=
  melToHz (hzToMel fmin + i * (hzToMel fmax - hzToMel fmin) / (nm + 1))

/-- librosa `fft_frequencies`: center frequency of FFT bin `k`. -/
def fftFreq (sr : ℝ) (n k : ℕ) : ℝ := k * sr / n

/-- librosa `filters.mel` weight of mel band `m` at FFT bin `k`: triangular
response between consecutive mel points, with Slaney area normalization. -/
def melWeight (sr : ℝ) (n nm : ℕ) (fmin fmax : ℝ) (m k : ℕ) : ℝ :=
  max 0 (min
      ((fftFreq sr n k - melPoints nm fmin fmax m)
        / (melPoints nm fmin fmax (m + 1) - melPoints nm fmin fmax m))
      ((melPoints nm fmin fmax (m + 2) - fftFreq sr n k)
        / (melPoints nm fmin fmax (m + 2) - melPoints nm fmin fmax (m + 1))))
    * (2 / (melPoints nm fmin fmax (m + 2) - melPoints nm fmin fmax m))

/-- Mel band `m` of frame `t` of the mel power spectrogram: the filterbank
row applied to the power spectrum `|STFT|²` of the frame. -/
def melBand (y : List ℝ) (sr : ℝ) (n hop nm : ℕ) (fmin fmax : ℝ)
    (m t : ℕ) : ℝ :=
  ∑ k ∈ Finset.range (n / 2 + 1),
    melWeight sr n nm fmin fmax m k
      * Complex.abs (dft (fun j => (wframe y n hop t j : ℂ)) n k) ^ 2

/-- `librosa.feature.melspectrogram(y, sr, n_fft, hop_length, n_mels, fmin,
fmax)`: the mel filterbank applied to the power spectrogram `|STFT|²`,
producing an `(n_mels, T)` matrix. -/
def melPowerMat (y : List ℝ) (sr : ℝ) (n hop nm : ℕ) (fmin fmax : ℝ) :
    List (List ℝ) :=
  mkMat nm (numFrames y.length n hop) (melBand y sr n hop nm fmin fmax)

/-- Maximum of `|entries|` of a matrix: the reference value `np.max`
computes when passed as `ref` to `librosa.power_to_db` (which applies the
callable to `np.abs(S)`). -/
def matAbsMax (M : List (List ℝ)) : ℝ := listMax (M.flatten.map (fun x => |x|))

/-- The Python expression `f_max or sample_rate / 2` in
`compute_mel_spectrogram`: any falsy `f_max` — `None` or `0.0` — is replaced
by the Nyquist frequency. -/
def resolveFmax (fmax : Option ℝ) (sr : ℝ) : ℝ :=
  match fmax with
  | none => sr / 2
  | some v => if v = 0 then sr / 2 else v

/-- `sappl.transform.compute_mel_spectrogram`: mel power spectrogram
converted to dB with the per-call adaptive reference `ref=np.max`, then
transposed to `(T, n_mels)`. -/
def computeMelSpectrogram (y : List ℝ) (sr : ℝ) (n hop nm : ℕ) (fmin : ℝ)
    (fmax : Option ℝ) : List (List ℝ) :=
  transposeA 0 (librosaPowerToDb
    (melPowerMat y sr n hop nm fmin (resolveFmax fmax sr))
    (matAbsMax (melPowerMat y sr n hop nm fmin (resolveFmax fmax sr))))

/-- `librosa.magphase(D)`: magnitude `|D|` and phase `exp(i·arg D)`
elementwise (numpy's `angle(0) = 0`, so the phase at a zero entry is `1`). -/
def librosaMagphase (S : List (List ℂ)) : List (List ℝ) × List (List ℂ) :=
  (mkMat (rowsA S) (colsA S) (fun i j => Complex.abs (entryA 0 S i j)),
   mkMat (rowsA S) (colsA S) (fun i j =>
     Complex.exp ((Complex.arg (entryA 0 S i j) : ℂ) * Complex.I)))

/-- `sappl.transform.magphase`: `librosa.magphase(M.T)` with both outputs
transposed back to `(T, F)`. -/
def sapplMagphase (M : List (List ℂ)) : List (List ℝ) × List (List ℂ) :=
  (transposeA 0 (librosaMagphase (transposeA 0 M)).1,
   transposeA 0 (librosaMagphase (transposeA 0 M)).2)

end

noncomputable section

theorem rowsA_transposeA {α : Type} (d : α) (M : List (List α)) :
    rowsA (transposeA d M) = colsA M :=
  rowsA_mkMat _ _ _

theorem colsA_transposeA {α : Type} (d : α) (M : List (List α)) (h : 0 < colsA M) :
    colsA (transposeA d M) = rowsA M :=
  colsA_mkMat _ _ h

theorem entryA_transposeA {α : Type} (d : α) (M : List (List α)) {i j : ℕ}
    (hi : i < colsA M) (hj : j < rowsA M) :
    entryA d (transposeA d M) i j = entryA d M j i :=
  entryA_mkMat d _ hi hj

theorem sapplMagphase_fst_entry (M : List (List ℂ)) {t f : ℕ}
    (hF : 0 < colsA M) (ht : t < rowsA M) (hf : f < colsA M) :
    entryA 0 (sapplMagphase M).1 t f = Complex.abs (entryA 0 M t f) := by
  have hSr : rowsA (transposeA (0 : ℂ) M) = colsA M := rowsA_transposeA 0 M
  have hSc : colsA (transposeA (0 : ℂ) M) = rowsA M := colsA_transposeA 0 M hF
  simp only [sapplMagphase, librosaMagphase]
  rw [entryA_transposeA]
  · rw [entryA_mkMat]
    · rw [entryA_transposeA 0 M hf ht]
    · rw [hSr]; exact hf
    · rw [hSc]; exact ht
  · rw [colsA_mkMat _ _ (by rw [hSr]; exact hF), hSc]; exact ht
  · rw [rowsA_mkMat, hSr]; exact hf

theorem sapplMagphase_snd_entry (M : List (List ℂ)) {t f : ℕ}
    (hF : 0 < colsA M) (ht : t < rowsA M) (hf : f < colsA M) :
    entryA 0 (sapplMagphase M).2 t f
      = Complex.exp ((Complex.arg (entryA 0 M t f) : ℂ) * Complex.I) := by
  have hSr : rowsA (transposeA (0 : ℂ) M) = colsA M := rowsA_transposeA 0 M
  have hSc : colsA (transposeA (0 : ℂ) M) = rowsA M := colsA_transposeA 0 M hF
  simp only [sapplMagphase, librosaMagphase]
  rw [entryA_transposeA]
  · rw [entryA_mkMat]
    · rw [entryA_transposeA 0 M hf ht]
    · rw [hSr]; exact hf
    · rw [hSc]; exact ht
  · rw [colsA_mkMat _ _ (by rw [hSr]; exact hF), hSc]; exact ht
  · rw [rowsA_mkMat, hSr]; exact hf

/-- C4: `magphase` returns `(magnitude, phase)` of the same shape as its
input, with `magnitude · phase` equal to the input matrix at every entry
(in particular wherever the magnitude is nonzero), and `phase = 1 + 0i`
at every entry whose magnitude is exactly `0`. -/
theorem magphase_reconstruction (M : List (List ℂ)) (t f : ℕ)
    (hT : 0 < rowsA M) (hF : 0 < colsA M) (ht : t < rowsA M) (hf : f < colsA M) :
    rowsA (sapplMagphase M).1 = rowsA M ∧ colsA (sapplMagphase M).1 = colsA M ∧
    rowsA (sapplMagphase M).2 = rowsA M ∧ colsA (sapplMagphase M).2 = colsA M ∧
    Complex.ofReal (entryA 0 (sapplMagphase M).1 t f) * entryA 0 (sapplMagphase M).2 t f
      = entryA 0 M t f ∧
    (entryA 0 (sapplMagphase M).1 t f = 0 → entryA 0 (sapplMagphase M).2 t f = 1) := by
  have hSr : rowsA (transposeA (0 : ℂ) M) = colsA M := rowsA_transposeA 0 M
  have hSc : colsA (transposeA (0 : ℂ) M) = rowsA M := colsA_transposeA 0 M hF
  have hmag := sapplMagphase_fst_entry M hF ht hf
  have hph := sapplMagphase_snd_entry M hF ht hf
  refine ⟨?_, ?_, ?_, ?_, ?_, ?_⟩
  · simp only [sapplMagphase, librosaMagphase]
    rw [rowsA_transposeA, colsA_mkMat _ _ (by rw [hSr]; exact hF), hSc]
  · simp only [sapplMagphase, librosaMagphase]
    rw [colsA_transposeA _ _ (by rw [colsA_mkMat _ _ (by rw [hSr]; exact hF), hSc]; exact hT),
      rowsA_mkMat, hSr]
  · simp only [sapplMagphase, librosaMagphase]
    rw [rowsA_transposeA, colsA_mkMat _ _ (by rw [hSr]; exact hF), hSc]
  · simp only [sapplMagphase, librosaMagphase]
    rw [colsA_transposeA _ _ (by rw [colsA_mkMat _ _ (by rw [hSr]; exact hF), hSc]; exact hT),
      rowsA_mkMat, hSr]
  · rw [hmag, hph]
    exact Complex.abs_mul_exp_arg_mul_I _
  · intro h0
    rw [hmag] at h0
    have hz : entryA 0 M t f = 0 := by
      exact (AbsoluteValue.eq_zero Complex.abs).mp h0
    rw [hph, hz]
    simp [Complex.arg_zero]

/-- C4 (witness): `magphase` applied to the concrete `1×1` matrix `[[i]]`. -/
theorem magphase_reconstruction_witness :
    Complex.ofReal (entryA 0 (sapplMagphase [[Complex.I]]).1 0 0)
        * entryA 0 (sapplMagphase [[Complex.I]]).2 0 0
      = entryA 0 [[Complex.I]] 0 0 ∧
    (entryA 0 (sapplMagphase [[Complex.I]]).1 0 0 = 0 →
      entryA 0 (sapplMagphase [[Complex.I]]).2 0 0 = 1) := by
  have h := magphase_reconstruction [[Complex.I]] 0 0
    (by simp [rowsA]) (by simp [colsA]) (by simp [rowsA]) (by simp [colsA])
  exact ⟨h.2.2.2.2.1, h.2.2.2.2.2⟩

end

noncomputable section

theorem transposeA_mkMat {α : Type} (d : α) (R C : ℕ) (g : ℕ → ℕ → α)
    (hR : 0 < R) :
    transposeA d (mkMat R C g) = mkMat C R (fun i j => g j i) := by
  unfold transposeA
  rw [rowsA_mkMat, colsA_mkMat _ _ hR]
  exact mkMat_congr (fun i j hi hj => entryA_mkMat d _ hj hi)

theorem flatten_mkMat_ne_nil {R C : ℕ} (h : ℕ → ℕ → ℝ) (hR : 0 < R) (hC : 0 < C) :
    (mkMat R C h).flatten ≠ [] :=
  List.ne_nil_of_mem (mem_flatten_mkMat.mpr ⟨0, 0, hR, hC, rfl⟩)

theorem listMax_flatten_mkMat_swap (R C : ℕ) (h : ℕ → ℕ → ℝ)
    (hR : 0 < R) (hC : 0 < C) :
    listMax ((mkMat C R (fun i j => h j i)).flatten)
      = listMax ((mkMat R C h).flatten) := by
  apply le_antisymm
  · refine listMax_le (flatten_mkMat_ne_nil _ hC hR) (fun x hx => ?_)
    obtain ⟨i, j, hi, hj, rfl⟩ := mem_flatten_mkMat.mp hx
    exact le_listMax (mem_flatten_mkMat.mpr ⟨j, i, hj, hi, rfl⟩)
  · refine listMax_le (flatten_mkMat_ne_nil _ hR hC) (fun x hx => ?_)
    obtain ⟨i, j, hi, hj, rfl⟩ := mem_flatten_mkMat.mp hx
    exact le_listMax (mem_flatten_mkMat.mpr ⟨j, i, hj, hi, rfl⟩)

theorem librosaPowerToDb_mkMat (R C : ℕ) (h : ℕ → ℕ → ℝ) (refv : ℝ)
    (hR : 0 < R) :
    librosaPowerToDb (mkMat R C h) refv
      = mkMat R C (fun i j =>
          max (dbEnt (h i j) refv)
            (listMax ((mkMat R C (fun a b => dbEnt (h a b) refv)).flatten)
              - topDb)) := by
  unfold librosaPowerToDb
  rw [rowsA_mkMat, colsA_mkMat _ _ hR]
  have hD : mkMat R C (fun a b => dbEnt (entryA 0 (mkMat R C h) a b) refv)
      = mkMat R C (fun a b => dbEnt (h a b) refv) :=
    mkMat_congr (fun a b ha hb => by rw [entryA_mkMat _ _ ha hb])
  rw [hD]
  exact mkMat_congr (fun i j hi hj => by rw [entryA_mkMat _ _ hi hj])

theorem sapplPowerToDb_eq (R C : ℕ) (g : ℕ → ℕ → ℝ) (ref : ℝ)
    (hR : 0 < R) (hC : 0 < C) :
    sapplPowerToDb (mkMat R C g) ref
      = mkMat R C (fun t f =>
          max (dbEnt (g t f) |ref|)
            (listMax ((mkMat R C (fun a b => dbEnt (g a b) |ref|)).flatten)
              - topDb)) := by
  unfold sapplPowerToDb
  rw [transposeA_mkMat 0 R C g hR, librosaPowerToDb_mkMat C R _ _ hC,
    transposeA_mkMat 0 C R _ hC]
  exact mkMat_congr (fun t f ht hf => by
    rw [listMax_flatten_mkMat_swap R C (fun a b => dbEnt (g a b) |ref|) hR hC])

theorem sapplDbToPower_mkMat (R C : ℕ) (h : ℕ → ℕ → ℝ) (ref : ℝ) (hR : 0 < R) :
    sapplDbToPower (mkMat R C h) ref
      = mkMat R C (fun i j => ref * (10 : ℝ) ^ (h i j / 10)) := by
  unfold sapplDbToPower
  rw [rowsA_mkMat, colsA_mkMat _ _ hR]
  exact mkMat_congr (fun i j hi hj => by rw [entryA_mkMat _ _ hi hj])

theorem sapplAmplitudeToDb_eq (R C : ℕ) (g : ℕ → ℕ → ℝ) (ref : ℝ)
    (hR : 0 < R) (hC : 0 < C) :
    sapplAmplitudeToDb (mkMat R C g) ref
      = mkMat R C (fun t f =>
          max (dbEnt (|g t f| ^ 2) (|ref| ^ 2))
            (listMax ((mkMat R C
              (fun a b => dbEnt (|g a b| ^ 2) (|ref| ^ 2))).flatten)
              - topDb)) := by
  unfold sapplAmplitudeToDb librosaAmpToDb
  rw [transposeA_mkMat 0 R C g hR, rowsA_mkMat, colsA_mkMat _ _ hC]
  have hsq : mkMat C R (fun i j =>
        |entryA 0 (mkMat C R (fun a b => g b a)) i j| ^ 2)
      = mkMat C R (fun i j => |g j i| ^ 2) :=
    mkMat_congr (fun i j hi hj => by rw [entryA_mkMat _ _ hi hj])
  rw [hsq, librosaPowerToDb_mkMat C R _ _ hC, transposeA_mkMat 0 C R _ hC]
  exact mkMat_congr (fun t f ht hf => by
    rw [listMax_flatten_mkMat_swap R C
      (fun a b => dbEnt (|g a b| ^ 2) (|ref| ^ 2)) hR hC])

theorem sapplDbToAmplitude_mkMat (R C : ℕ) (h : ℕ → ℕ → ℝ) (ref : ℝ)
    (hR : 0 < R) :
    sapplDbToAmplitude (mkMat R C h) ref
      = mkMat R C (fun i j =>
          Real.sqrt (ref ^ 2 * (10 : ℝ) ^ (h i j / 10))) := by
  unfold sapplDbToAmplitude
  rw [rowsA_mkMat, colsA_mkMat _ _ hR]
  exact mkMat_congr (fun i j hi hj => by rw [entryA_mkMat _ _ hi hj])

end

noncomputable section

theorem logb_ten_1e9 : Real.logb 10 (1e-9 : ℝ) = -9 := by
  have h : (1e-9 : ℝ) = ((10 : ℝ) ^ (9 : ℕ))⁻¹ := by norm_num
  rw [h, Real.logb_inv,
    show ((10 : ℝ) ^ (9 : ℕ)) = (10 : ℝ) ^ ((9 : ℕ) : ℝ) from
      (Real.rpow_natCast 10 9).symm,
    Real.logb_rpow (by norm_num) (by norm_num)]
  norm_num

theorem dbEnt_one_one : dbEnt 1 1 = 0 := by
  unfold dbEnt
  rw [abs_one]
  simp

theorem dbEnt_1e9_one : dbEnt (1e-9 : ℝ) 1 = -90 := by
  unfold dbEnt aminP
  rw [abs_of_pos (by norm_num : (0 : ℝ) < 1e-9),
    max_eq_right (by norm_num : (1e-10 : ℝ) ≤ 1e-9),
    max_eq_right (by norm_num : (1e-10 : ℝ) ≤ 1),
    logb_ten_1e9, Real.logb_one]
  norm_num

theorem sapplPowerToDb_pair :
    sapplPowerToDb [[(1 : ℝ), 1e-9]] 1 = [[(0 : ℝ), -80]] := by
  have hmat : ([[(1 : ℝ), 1e-9]] : List (List ℝ))
      = mkMat 1 2 (fun _ j => if j = 0 then (1 : ℝ) else 1e-9) := rfl
  rw [hmat, sapplPowerToDb_eq 1 2 _ 1 one_pos (by norm_num)]
  have hD : listMax ((mkMat 1 2 (fun a b =>
      dbEnt (if b = 0 then (1 : ℝ) else 1e-9) |(1 : ℝ)|)).flatten) = 0 := by
    have hL : (mkMat 1 2 (fun a b =>
        dbEnt (if b = 0 then (1 : ℝ) else 1e-9) |(1 : ℝ)|)).flatten
        = [dbEnt 1 |(1 : ℝ)|, dbEnt (1e-9 : ℝ) |(1 : ℝ)|] := rfl
    rw [hL, abs_one, dbEnt_one_one, dbEnt_1e9_one]
    rw [show listMax [(0 : ℝ), -90] = max 0 (-90) from rfl]
    exact max_eq_left (by norm_num)
  rw [hD]
  have hout : mkMat 1 2 (fun t f =>
      max (dbEnt (if f = 0 then (1 : ℝ) else 1e-9) |(1 : ℝ)|) (0 - topDb))
      = [[max (dbEnt 1 |(1 : ℝ)|) (0 - topDb),
          max (dbEnt (1e-9 : ℝ) |(1 : ℝ)|) (0 - topDb)]] := rfl
  rw [hout, abs_one, dbEnt_one_one, dbEnt_1e9_one,
    show topDb = (80 : ℝ) from rfl,
    max_eq_left (by norm_num), max_eq_right (by norm_num)]
  norm_num

/-- C6 (counterexample): `power_to_db` is not the pure elementwise formula
`10·log10(max(p, ε)/ref)`: on the matrix `[[1, 1e-9]]` with `ref = 1`, the
entry for `1e-9` is `-80` (clamped by librosa's default `top_db = 80`
dynamic range), while the formula gives `-90`.  The same entry value `1e-9`
in the matrix `[[1e-9]]` would map to `-90`, so the output depends on the
rest of the matrix, not only on the entry, `ε` and `ref`. -/
theorem power_to_db_not_pointwise :
    entryA 0 (sapplPowerToDb [[(1 : ℝ), 1e-9]] 1) 0 1
      ≠ 10 * Real.logb 10 (max (1e-10) (1e-9 : ℝ) / 1) := by
  rw [sapplPowerToDb_pair,
    show entryA (0 : ℝ) [[(0 : ℝ), -80]] 0 1 = -80 from rfl,
    max_eq_right (by norm_num : (1e-10 : ℝ) ≤ 1e-9), div_one, logb_ten_1e9]
  norm_num

end

noncomputable section

theorem aminP_pos : (0 : ℝ) < aminP := by norm_num [aminP]

theorem max_aminP_pos (x : ℝ) : (0 : ℝ) < max aminP x :=
  lt_max_of_lt_left aminP_pos

/-- C6 (amended): for fixed `ref`, `power_to_db` computes elementwise
`10·log10(max(ε, |p|) / max(ε, |ref|))` with `ε = 1e-10`, **followed by**
librosa's default dynamic-range clamp at 80 dB below the matrix maximum dB;
the pure elementwise formula describes the output exactly for the entries
whose formula value is within 80 dB of the matrix maximum, so the output at
an entry depends on the whole matrix through the clamp, not only on that
entry, `ε` and `ref`. -/
theorem power_to_db_entry_formula (R C : ℕ) (g : ℕ → ℕ → ℝ) (ref : ℝ)
    (hR : 0 < R) (hC : 0 < C) (t f : ℕ) (ht : t < R) (hf : f < C) :
    entryA 0 (sapplPowerToDb (mkMat R C g) ref) t f
      = max (10 * Real.logb 10 (max aminP |g t f| / max aminP |ref|))
          (listMax ((mkMat R C (fun a b => dbEnt (g a b) |ref|)).flatten)
            - topDb)
    ∧ (listMax ((mkMat R C (fun a b => dbEnt (g a b) |ref|)).flatten) - topDb
          ≤ 10 * Real.logb 10 (max aminP |g t f| / max aminP |ref|) →
        entryA 0 (sapplPowerToDb (mkMat R C g) ref) t f
          = 10 * Real.logb 10 (max aminP |g t f| / max aminP |ref|)) := by
  have hdb : dbEnt (g t f) |ref|
      = 10 * Real.logb 10 (max aminP |g t f| / max aminP |ref|) := by
    unfold dbEnt
    rw [Real.logb_div (ne_of_gt (max_aminP_pos _)) (ne_of_gt (max_aminP_pos _))]
    ring
  have hent : entryA 0 (sapplPowerToDb (mkMat R C g) ref) t f
      = max (dbEnt (g t f) |ref|)
          (listMax ((mkMat R C (fun a b => dbEnt (g a b) |ref|)).flatten)
            - topDb) := by
    rw [sapplPowerToDb_eq R C g ref hR hC, entryA_mkMat _ _ ht hf]
  constructor
  · rw [hent, hdb]
  · intro hcl
    rw [hent, hdb]
    exact max_eq_left hcl

/-- C6 (witness): the amended entry formula at the `1 × 1` power matrix
`[[1]]` with `ref = 1`. -/
theorem power_to_db_entry_formula_witness :
    entryA 0 (sapplPowerToDb (mkMat 1 1 (fun _ _ => (1 : ℝ))) 1) 0 0
      = max (10 * Real.logb 10 (max aminP |(1 : ℝ)| / max aminP |(1 : ℝ)|))
          (listMax ((mkMat 1 1
            (fun a b => dbEnt ((1 : ℝ)) |(1 : ℝ)|)).flatten) - topDb) := by
  have h := (power_to_db_entry_formula 1 1 (fun _ _ => (1 : ℝ)) 1
    one_pos one_pos 0 0 one_pos one_pos).1
  exact h

theorem sapplPowerToDb_single (p ref : ℝ) :
    entryA 0 (sapplPowerToDb [[p]] ref) 0 0 = dbEnt p |ref| := by
  have hmat : ([[p]] : List (List ℝ)) = mkMat 1 1 (fun _ _ => p) := rfl
  rw [hmat, sapplPowerToDb_eq 1 1 _ ref one_pos one_pos,
    entryA_mkMat _ _ one_pos one_pos]
  refine max_eq_left ?_
  have hsing : listMax ((mkMat 1 1
      (fun a b => dbEnt ((fun _ _ => p) a b) |ref|)).flatten) = dbEnt p |ref| := rfl
  rw [hsing, show topDb = (80 : ℝ) from rfl]
  linarith

theorem sapplPowerToDb_single_floor (p : ℝ) (hp0 : 0 < p) (hp : p ≤ aminP) :
    entryA 0 (sapplPowerToDb [[p]] 1) 0 0 = -100 := by
  rw [sapplPowerToDb_single, abs_one]
  unfold dbEnt
  rw [abs_of_pos hp0, max_eq_left hp,
    max_eq_right (by norm_num [aminP] : aminP ≤ (1 : ℝ)), Real.logb_one,
    show aminP = ((10 : ℝ) ^ (10 : ℕ))⁻¹ by norm_num [aminP], Real.logb_inv,
    show ((10 : ℝ) ^ (10 : ℕ)) = (10 : ℝ) ^ ((10 : ℕ) : ℝ) from
      (Real.rpow_natCast 10 10).symm,
    Real.logb_rpow (by norm_num) (by norm_num)]
  norm_num

/-- C7 (counterexample): `power_to_db` is not strictly increasing in the
input power: the single-entry spectrograms `[[1e-12]]` and `[[1e-11]]`
(with `1e-12 < 1e-11`) both map to `-100` dB because both values lie below
librosa's floor `ε = 1e-10`, so a greater power does not give a greater dB
output. -/
theorem power_to_db_not_strictly_monotone :
    (1e-12 : ℝ) < 1e-11 ∧
    entryA 0 (sapplPowerToDb [[(1e-12 : ℝ)]] 1) 0 0
      = entryA 0 (sapplPowerToDb [[(1e-11 : ℝ)]] 1) 0 0 := by
  refine ⟨by norm_num, ?_⟩
  rw [sapplPowerToDb_single_floor (1e-12) (by norm_num) (by norm_num [aminP]),
    sapplPowerToDb_single_floor (1e-11) (by norm_num) (by norm_num [aminP])]

theorem dbEnt_mono (r : ℝ) {a b : ℝ} (ha : 0 ≤ a) (hab : a ≤ b) :
    dbEnt a r ≤ dbEnt b r := by
  unfold dbEnt
  have h1 : |a| ≤ |b| := by
    rw [abs_of_nonneg ha, abs_of_nonneg (le_trans ha hab)]
    exact hab
  have h2 : max aminP |a| ≤ max aminP |b| := max_le_max le_rfl h1
  have h3 := Real.logb_le_logb_of_le (by norm_num : (1 : ℝ) < 10)
    (max_aminP_pos |a|) h2
  linarith

/-- C7 (amended): for fixed `ref`, `power_to_db` is monotonically
non-decreasing in the input power: for same-shape non-negative power
spectrograms with `g ≤ h` elementwise, every output entry for `g` is `≤` the
corresponding entry for `h` (the `ε = 1e-10` floor and the `top_db = 80`
clamp make this non-strict in general); and it is strictly increasing on
single-entry spectrograms whose values are at or above the floor `ε`. -/
theorem power_to_db_monotone (R C : ℕ) (g h : ℕ → ℕ → ℝ) (ref : ℝ) (p q : ℝ)
    (hR : 0 < R) (hC : 0 < C)
    (hg0 : ∀ i j, i < R → j < C → 0 ≤ g i j)
    (hgh : ∀ i j, i < R → j < C → g i j ≤ h i j)
    (t f : ℕ) (ht : t < R) (hf : f < C)
    (hp : aminP ≤ p) (hpq : p < q) :
    entryA 0 (sapplPowerToDb (mkMat R C g) ref) t f
      ≤ entryA 0 (sapplPowerToDb (mkMat R C h) ref) t f ∧
    entryA 0 (sapplPowerToDb [[p]] ref) 0 0
      < entryA 0 (sapplPowerToDb [[q]] ref) 0 0 := by
  constructor
  · rw [sapplPowerToDb_eq R C g ref hR hC, sapplPowerToDb_eq R C h ref hR hC,
      entryA_mkMat _ _ ht hf, entryA_mkMat _ _ ht hf]
    have hDle : listMax ((mkMat R C (fun a b => dbEnt (g a b) |ref|)).flatten)
        ≤ listMax ((mkMat R C (fun a b => dbEnt (h a b) |ref|)).flatten) := by
      refine listMax_le (flatten_mkMat_ne_nil _ hR hC) (fun x hx => ?_)
      obtain ⟨i, j, hi, hj, rfl⟩ := mem_flatten_mkMat.mp hx
      refine le_trans (dbEnt_mono |ref| (hg0 i j hi hj) (hgh i j hi hj)) ?_
      exact le_listMax (mem_flatten_mkMat.mpr ⟨i, j, hi, hj, rfl⟩)
    exact max_le_max (dbEnt_mono |ref| (hg0 t f ht hf) (hgh t f ht hf))
      (by linarith)
  · rw [sapplPowerToDb_single, sapplPowerToDb_single]
    unfold dbEnt
    have hp0 : 0 < p := lt_of_lt_of_le aminP_pos hp
    have hq0 : 0 < q := lt_trans hp0 hpq
    rw [abs_of_pos hp0, abs_of_pos hq0, max_eq_right hp,
      max_eq_right (le_of_lt (lt_of_le_of_lt hp hpq))]
    have := Real.logb_lt_logb (by norm_num : (1 : ℝ) < 10) hp0 hpq
    linarith

/-- C7 (witness): monotonicity at the concrete pair `[[1]] ≤ [[2]]` and the
strict comparison at `ε ≤ 1 < 2`, with `ref = 1`. -/
theorem power_to_db_monotone_witness :
    entryA 0 (sapplPowerToDb (mkMat 1 1 (fun _ _ => (1 : ℝ))) 1) 0 0
      ≤ entryA 0 (sapplPowerToDb (mkMat 1 1 (fun _ _ => (2 : ℝ))) 1) 0 0 ∧
    entryA 0 (sapplPowerToDb [[(1 : ℝ)]] 1) 0 0
      < entryA 0 (sapplPowerToDb [[(2 : ℝ)]] 1) 0 0 :=
  power_to_db_monotone 1 1 (fun _ _ => (1 : ℝ)) (fun _ _ => (2 : ℝ)) 1 1 2
    one_pos one_pos (fun _ _ _ _ => by norm_num) (fun _ _ _ _ => by norm_num)
    0 0 one_pos one_pos (by norm_num [aminP]) (by norm_num)

end

noncomputable section

/-- C5 (counterexample): the dB/power round trip is not the identity on
every spectrogram whose entries all exceed the floor `ε = 1e-10`: on
`[[1, 1e-9]]` with `ref = 1` (both entries `> ε`), `power_to_db` clamps the
second entry at `top_db = 80` below the maximum, so
`db_to_power(power_to_db(...))` returns `1e-8` in place of `1e-9`. -/
theorem db_power_roundtrip_cex :
    entryA 0 (sapplDbToPower (sapplPowerToDb [[(1 : ℝ), 1e-9]] 1) 1) 0 1
      ≠ 1e-9 := by
  rw [sapplPowerToDb_pair]
  have h2 : sapplDbToPower [[(0 : ℝ), -80]] 1
      = mkMat 1 2 (fun i j =>
          1 * (10 : ℝ) ^ (entryA 0 [[(0 : ℝ), -80]] i j / 10)) := rfl
  rw [h2, entryA_mkMat _ _ (by norm_num) (by norm_num),
    show entryA (0 : ℝ) [[(0 : ℝ), -80]] 0 1 = -80 from rfl, one_mul]
  have hpow : (10 : ℝ) ^ ((-80 : ℝ) / 10) = ((10 : ℝ) ^ (8 : ℕ))⁻¹ := by
    rw [show (-80 : ℝ) / 10 = -((8 : ℕ) : ℝ) by norm_num,
      Real.rpow_neg (by norm_num), Real.rpow_natCast]
  rw [hpow]
  norm_num

theorem logb_ten_pow_nat (k : ℕ) : Real.logb 10 ((10 : ℝ) ^ k) = k := by
  rw [show ((10 : ℝ) ^ k) = (10 : ℝ) ^ ((k : ℕ) : ℝ) from
    (Real.rpow_natCast 10 k).symm]
  exact Real.logb_rpow (by norm_num) (by norm_num)

/-- C5 (amended): the dB round trips are exact once both lossy mechanisms
are avoided: for `ref ≥ ε` and power entries that all exceed `ε = 1e-10`
**and lie within 80 dB (a factor `10^8`) of each other**,
`db_to_power(power_to_db(P, ref), ref) = P` exactly; symmetrically, for
`ref ≥ 1e-5` and amplitude entries exceeding `1e-5` within a factor `10^4`
of each other, `db_to_amplitude(amplitude_to_db(A, ref), ref) = A`. -/
theorem db_roundtrips (R C : ℕ) (g : ℕ → ℕ → ℝ) (ref : ℝ)
    (hR : 0 < R) (hC : 0 < C) :
    ((aminP ≤ ref) → (∀ i j, i < R → j < C → aminP < g i j) →
      (∀ i j a b, i < R → j < C → a < R → b < C → g a b ≤ g i j * 10 ^ 8) →
      sapplDbToPower (sapplPowerToDb (mkMat R C g) ref) ref = mkMat R C g) ∧
    (((1e-5 : ℝ) ≤ ref) → (∀ i j, i < R → j < C → (1e-5 : ℝ) < g i j) →
      (∀ i j a b, i < R → j < C → a < R → b < C → g a b ≤ g i j * 10 ^ 4) →
      sapplDbToAmplitude (sapplAmplitudeToDb (mkMat R C g) ref) ref
        = mkMat R C g) := by
  constructor
  · intro href hg hrange
    have hrefpos : 0 < ref := lt_of_lt_of_le aminP_pos href
    have habs : |ref| = ref := abs_of_pos hrefpos
    have hgpos : ∀ i j, i < R → j < C → 0 < g i j :=
      fun i j hi hj => lt_trans aminP_pos (hg i j hi hj)
    have hdb : ∀ t f, t < R → f < C →
        dbEnt (g t f) |ref|
          = 10 * Real.logb 10 (g t f) - 10 * Real.logb 10 ref := by
      intro t f ht hf
      unfold dbEnt
      rw [habs, abs_of_pos (hgpos t f ht hf),
        max_eq_right (le_of_lt (hg t f ht hf)), max_eq_right href]
    have hD : ∀ t f, t < R → f < C →
        listMax ((mkMat R C (fun a b => dbEnt (g a b) |ref|)).flatten) - topDb
          ≤ dbEnt (g t f) |ref| := by
      intro t f ht hf
      have hmem := listMax_mem
        (flatten_mkMat_ne_nil (fun a b => dbEnt (g a b) |ref|) hR hC)
      obtain ⟨a, b, ha, hb, hab⟩ := mem_flatten_mkMat.mp hmem
      rw [hab, hdb a b ha hb, hdb t f ht hf]
      have h1 : g a b ≤ g t f * 10 ^ 8 := hrange t f a b ht hf ha hb
      have h2 : Real.logb 10 (g a b) ≤ Real.logb 10 (g t f * 10 ^ 8) :=
        Real.logb_le_logb_of_le (by norm_num) (hgpos a b ha hb) h1
      rw [Real.logb_mul (ne_of_gt (hgpos t f ht hf)) (by norm_num),
        logb_ten_pow_nat 8] at h2
      rw [show topDb = (80 : ℝ) from rfl]
      push_cast at h2
      linarith
    rw [sapplPowerToDb_eq R C g ref hR hC]
    have hclamp : mkMat R C (fun t f =>
        max (dbEnt (g t f) |ref|)
          (listMax ((mkMat R C (fun a b => dbEnt (g a b) |ref|)).flatten)
            - topDb))
        = mkMat R C (fun t f => dbEnt (g t f) |ref|) :=
      mkMat_congr (fun t f ht hf => max_eq_left (hD t f ht hf))
    rw [hclamp, sapplDbToPower_mkMat R C _ ref hR]
    refine mkMat_congr (fun t f ht hf => ?_)
    rw [hdb t f ht hf]
    have hexp : (10 * Real.logb 10 (g t f) - 10 * Real.logb 10 ref) / 10
        = Real.logb 10 (g t f / ref) := by
      rw [Real.logb_div (ne_of_gt (hgpos t f ht hf)) (ne_of_gt hrefpos)]
      ring
    rw [hexp, Real.rpow_logb (by norm_num) (by norm_num)
      (div_pos (hgpos t f ht hf) hrefpos)]
    field_simp
  · intro href hg hrange
    have hrefpos : (0 : ℝ) < ref := lt_of_lt_of_le (by norm_num) href
    have habs : |ref| = ref := abs_of_pos hrefpos
    have hgpos : ∀ i j, i < R → j < C → 0 < g i j :=
      fun i j hi hj => lt_trans (by norm_num) (hg i j hi hj)
    have hsq : ∀ i j, i < R → j < C → aminP < g i j ^ 2 := by
      intro i j hi hj
      have h1 : (1e-5 : ℝ) ^ 2 < g i j ^ 2 :=
        pow_lt_pow_left (hg i j hi hj) (by norm_num) (by norm_num)
      have h2 : ((1e-5 : ℝ)) ^ 2 = aminP := by norm_num [aminP]
      linarith
    have hrefsq : aminP ≤ ref ^ 2 := by
      have h1 : (1e-5 : ℝ) ^ 2 ≤ ref ^ 2 :=
        pow_le_pow_left (by norm_num) href 2
      have h2 : ((1e-5 : ℝ)) ^ 2 = aminP := by norm_num [aminP]
      linarith
    have hdb : ∀ t f, t < R → f < C →
        dbEnt (|g t f| ^ 2) (|ref| ^ 2)
          = 10 * Real.logb 10 (g t f ^ 2) - 10 * Real.logb 10 (ref ^ 2) := by
      intro t f ht hf
      unfold dbEnt
      rw [habs, sq_abs,
        abs_of_pos (pow_pos (hgpos t f ht hf) 2),
        max_eq_right (le_of_lt (hsq t f ht hf)), max_eq_right hrefsq]
    have hD : ∀ t f, t < R → f < C →
        listMax ((mkMat R C
          (fun a b => dbEnt (|g a b| ^ 2) (|ref| ^ 2))).flatten) - topDb
          ≤ dbEnt (|g t f| ^ 2) (|ref| ^ 2) := by
      intro t f ht hf
      have hmem := listMax_mem (flatten_mkMat_ne_nil
        (fun a b => dbEnt (|g a b| ^ 2) (|ref| ^ 2)) hR hC)
      obtain ⟨a, b, ha, hb, hab⟩ := mem_flatten_mkMat.mp hmem
      rw [hab, hdb a b ha hb, hdb t f ht hf]
      have h1 : g a b ≤ g t f * 10 ^ 4 := hrange t f a b ht hf ha hb
      have h1sq : g a b ^ 2 ≤ g t f ^ 2 * 10 ^ 8 := by
        have h2 : g a b ^ 2 ≤ (g t f * 10 ^ 4) ^ 2 :=
          pow_le_pow_left (le_of_lt (hgpos a b ha hb)) h1 2
        have h3 : (g t f * 10 ^ 4) ^ 2 = g t f ^ 2 * 10 ^ 8 := by ring
        linarith
      have h2 : Real.logb 10 (g a b ^ 2)
          ≤ Real.logb 10 (g t f ^ 2 * 10 ^ 8) :=
        Real.logb_le_logb_of_le (by norm_num)
          (pow_pos (hgpos a b ha hb) 2) h1sq
      rw [Real.logb_mul (ne_of_gt (pow_pos (hgpos t f ht hf) 2)) (by norm_num),
        logb_ten_pow_nat 8] at h2
      rw [show topDb = (80 : ℝ) from rfl]
      push_cast at h2
      linarith
    rw [sapplAmplitudeToDb_eq R C g ref hR hC]
    have hclamp : mkMat R C (fun t f =>
        max (dbEnt (|g t f| ^ 2) (|ref| ^ 2))
          (listMax ((mkMat R C
            (fun a b => dbEnt (|g a b| ^ 2) (|ref| ^ 2))).flatten) - topDb))
        = mkMat R C (fun t f => dbEnt (|g t f| ^ 2) (|ref| ^ 2)) :=
      mkMat_congr (fun t f ht hf => max_eq_left (hD t f ht hf))
    rw [hclamp, sapplDbToAmplitude_mkMat R C _ ref hR]
    refine mkMat_congr (fun t f ht hf => ?_)
    rw [hdb t f ht hf]
    have hexp : (10 * Real.logb 10 (g t f ^ 2) - 10 * Real.logb 10 (ref ^ 2))
        / 10 = Real.logb 10 (g t f ^ 2 / ref ^ 2) := by
      rw [Real.logb_div (ne_of_gt (pow_pos (hgpos t f ht hf) 2))
        (ne_of_gt (pow_pos hrefpos 2))]
      ring
    rw [hexp, Real.rpow_logb (by norm_num) (by norm_num)
      (div_pos (pow_pos (hgpos t f ht hf) 2) (pow_pos hrefpos 2))]
    rw [mul_div_cancel₀ _ (ne_of_gt (pow_pos hrefpos 2))]
    exact Real.sqrt_sq (le_of_lt (hgpos t f ht hf))

/-- C5 (witness): both round trips at the concrete `1 × 1` spectrogram
`[[1]]` with `ref = 1`. -/
theorem db_roundtrips_witness :
    sapplDbToPower (sapplPowerToDb (mkMat 1 1 (fun _ _ => (1 : ℝ))) 1) 1
      = mkMat 1 1 (fun _ _ => (1 : ℝ)) ∧
    sapplDbToAmplitude (sapplAmplitudeToDb (mkMat 1 1 (fun _ _ => (1 : ℝ))) 1) 1
      = mkMat 1 1 (fun _ _ => (1 : ℝ)) := by
  have h := db_roundtrips 1 1 (fun _ _ => (1 : ℝ)) 1 one_pos one_pos
  exact ⟨h.1 (by norm_num [aminP]) (fun i j _ _ => by norm_num [aminP])
      (fun i j a b _ _ _ _ => by norm_num),
    h.2 (by norm_num) (fun i j _ _ => by norm_num)
      (fun i j a b _ _ _ _ => by norm_num)⟩

end

noncomputable section

theorem clamped_listMax (R C : ℕ) (dbv : ℕ → ℕ → ℝ) (hR : 0 < R) (hC : 0 < C) :
    listMax ((mkMat R C (fun i j => max (dbv i j)
        (listMax ((mkMat R C dbv).flatten) - topDb))).flatten)
      = listMax ((mkMat R C dbv).flatten) := by
  have htop : (0 : ℝ) ≤ topDb := by norm_num [topDb]
  have hDmem := listMax_mem (flatten_mkMat_ne_nil dbv hR hC)
  obtain ⟨i0, j0, hi0, hj0, hD0⟩ := mem_flatten_mkMat.mp hDmem
  apply le_antisymm
  · refine listMax_le (flatten_mkMat_ne_nil _ hR hC) (fun x hx => ?_)
    obtain ⟨i, j, hi, hj, rfl⟩ := mem_flatten_mkMat.mp hx
    refine max_le ?_ (by linarith)
    exact le_listMax (mem_flatten_mkMat.mpr ⟨i, j, hi, hj, rfl⟩)
  · refine le_listMax (mem_flatten_mkMat.mpr ⟨i0, j0, hi0, hj0, ?_⟩)
    rw [← hD0]
    exact (max_eq_left (by linarith)).symm
  
theorem clamped_range_le (R C : ℕ) (dbv : ℕ → ℕ → ℝ) (hR : 0 < R) (hC : 0 < C)
    {t f : ℕ} (ht : t < R) (hf : f < C) :
    listMax ((mkMat R C (fun i j => max (dbv i j)
        (listMax ((mkMat R C dbv).flatten) - topDb))).flatten) - topDb
      ≤ entryA 0 (mkMat R C (fun i j => max (dbv i j)
        (listMax ((mkMat R C dbv).flatten) - topDb))) t f := by
  rw [clamped_listMax R C dbv hR hC, entryA_mkMat _ _ ht hf]
  exact le_max_right _ _

theorem computeMel_eq (y : List ℝ) (sr fmin : ℝ) (fmax : Option ℝ)
    (n hop nm : ℕ) (hnm : 0 < nm) :
    computeMelSpectrogram y sr n hop nm fmin fmax
      = mkMat (numFrames y.length n hop) nm (fun t m =>
          max (dbEnt (melBand y sr n hop nm fmin (resolveFmax fmax sr) m t)
                (matAbsMax (melPowerMat y sr n hop nm fmin (resolveFmax fmax sr))))
            (listMax ((mkMat (numFrames y.length n hop) nm (fun a b =>
                dbEnt (melBand y sr n hop nm fmin (resolveFmax fmax sr) b a)
                  (matAbsMax (melPowerMat y sr n hop nm fmin
                    (resolveFmax fmax sr))))).flatten)
              - topDb)) := by
  unfold computeMelSpectrogram melPowerMat
  rw [librosaPowerToDb_mkMat nm (numFrames y.length n hop) _ _ hnm,
    transposeA_mkMat 0 nm (numFrames y.length n hop) _ hnm]
  refine mkMat_congr (fun t m ht hm => ?_)
  rw [listMax_flatten_mkMat_swap (numFrames y.length n hop) nm _
    (numFrames_pos _ _ _) hnm]

end

noncomputable section

/-- C9: because `power_to_db`, `amplitude_to_db`, and the dB conversion
inside `compute_mel_spectrogram` run with librosa's default dynamic-range
clamp `top_db = 80`, every element of each returned dB matrix is at least
the maximum element of that matrix minus 80 dB; values the pure formula
would place further below are clipped up to that threshold. -/
theorem db_dynamic_range_80 (R C n hop nm : ℕ) (g : ℕ → ℕ → ℝ) (ref : ℝ)
    (y : List ℝ) (sr fmin : ℝ) (fmax : Option ℝ)
    (t1 f1 t2 f2 t3 f3 : ℕ)
    (hR : 0 < R) (hC : 0 < C) (hnm : 0 < nm)
    (ht1 : t1 < R) (hf1 : f1 < C) (ht2 : t2 < R) (hf2 : f2 < C)
    (ht3 : t3 < numFrames y.length n hop) (hf3 : f3 < nm) :
    listMax ((sapplPowerToDb (mkMat R C g) ref).flatten) - 80
      ≤ entryA 0 (sapplPowerToDb (mkMat R C g) ref) t1 f1 ∧
    listMax ((sapplAmplitudeToDb (mkMat R C g) ref).flatten) - 80
      ≤ entryA 0 (sapplAmplitudeToDb (mkMat R C g) ref) t2 f2 ∧
    listMax ((computeMelSpectrogram y sr n hop nm fmin fmax).flatten) - 80
      ≤ entryA 0 (computeMelSpectrogram y sr n hop nm fmin fmax) t3 f3 := by
  refine ⟨?_, ?_, ?_⟩
  · rw [sapplPowerToDb_eq R C g ref hR hC]
    have h := clamped_range_le R C (fun a b => dbEnt (g a b) |ref|) hR hC ht1 hf1
    rw [show topDb = (80 : ℝ) from rfl] at h
    exact h
  · rw [sapplAmplitudeToDb_eq R C g ref hR hC]
    have h := clamped_range_le R C
      (fun a b => dbEnt (|g a b| ^ 2) (|ref| ^ 2)) hR hC ht2 hf2
    rw [show topDb = (80 : ℝ) from rfl] at h
    exact h
  · rw [computeMel_eq y sr fmin fmax n hop nm hnm]
    have h := clamped_range_le (numFrames y.length n hop) nm
      (fun a b => dbEnt (melBand y sr n hop nm fmin (resolveFmax fmax sr) b a)
        (matAbsMax (melPowerMat y sr n hop nm fmin (resolveFmax fmax sr))))
      (numFrames_pos _ _ _) hnm ht3 hf3
    rw [show topDb = (80 : ℝ) from rfl] at h
    exact h

/-- C9 (witness): the 80 dB dynamic-range bound at concrete inputs: the
`1 × 1` spectrogram `[[1]]` with `ref = 1`, and the mel spectrogram of the
empty signal with `n_fft = 4`, `hop = 2`, `n_mels = 1`. -/
theorem db_dynamic_range_80_witness :
    listMax ((sapplPowerToDb (mkMat 1 1 (fun _ _ => (1 : ℝ))) 1).flatten) - 80
      ≤ entryA 0 (sapplPowerToDb (mkMat 1 1 (fun _ _ => (1 : ℝ))) 1) 0 0 ∧
    listMax ((sapplAmplitudeToDb (mkMat 1 1 (fun _ _ => (1 : ℝ))) 1).flatten) - 80
      ≤ entryA 0 (sapplAmplitudeToDb (mkMat 1 1 (fun _ _ => (1 : ℝ))) 1) 0 0 ∧
    listMax ((computeMelSpectrogram [] 16000 4 2 1 0 none).flatten) - 80
      ≤ entryA 0 (computeMelSpectrogram [] 16000 4 2 1 0 none) 0 0 :=
  db_dynamic_range_80 1 1 4 2 1 (fun _ _ => (1 : ℝ)) 1 [] 16000 0 none
    0 0 0 0 0 0 one_pos one_pos one_pos one_pos one_pos one_pos one_pos
    (by decide) one_pos

/-- C10: in `compute_mel_spectrogram`, any falsy `f_max` — not only the
documented default `None` but also an explicit `f_max = 0.0` — is replaced
by `sample_rate/2` (Nyquist) before building the mel filterbank, so calling
with `f_max = 0.0` behaves identically to calling with `f_max = None`. -/
theorem compute_mel_fmax_falsy (y : List ℝ) (sr fmin : ℝ) (n hop nm : ℕ) :
    computeMelSpectrogram y sr n hop nm fmin (some 0)
      = computeMelSpectrogram y sr n hop nm fmin none := by
  unfold computeMelSpectrogram
  rw [show resolveFmax (some 0) sr = resolveFmax none sr by simp [resolveFmax]]

end

noncomputable section

theorem abs_le_matAbsMax {M : List (List ℝ)} {x : ℝ} (hx : x ∈ M.flatten) :
    |x| ≤ matAbsMax M :=
  le_listMax (List.mem_map.mpr ⟨x, hx, rfl⟩)

theorem matAbsMax_attained {M : List (List ℝ)} (hne : M.flatten ≠ []) :
    ∃ x ∈ M.flatten, matAbsMax M = |x| := by
  have hmapne : M.flatten.map (fun x => |x|) ≠ [] := by
    simpa using hne
  obtain ⟨x, hx, hxe⟩ := List.mem_map.mp (listMax_mem hmapne)
  exact ⟨x, hx, hxe.symm⟩

/-- C3: `compute_mel_spectrogram` returns a matrix of shape `(T, n_mels)`
(`T` the same frame-count formula as the STFT with identical
`n_fft`/`hop_length`), and converts the mel power matrix to dB using as
reference the maximum over the *entire* matrix for that call: whenever that
maximum is at least the floor `ε`, the maximum of the returned dB matrix is
exactly `0` — a per-call adaptive reference, unlike a fixed `ref = 1.0`,
which would place the maximum at `10·log10(max)` instead. -/
theorem compute_mel_shape_and_adaptive_ref (y : List ℝ) (sr fmin : ℝ)
    (fmax : Option ℝ) (n hop nm : ℕ) (hnm : 0 < nm) :
    (computeMelSpectrogram y sr n hop nm fmin fmax).length
        = 1 + (y.length + 2 * (n / 2) - n) / hop ∧
    (∀ row ∈ computeMelSpectrogram y sr n hop nm fmin fmax, row.length = nm) ∧
    (aminP ≤ matAbsMax (melPowerMat y sr n hop nm fmin (resolveFmax fmax sr)) →
      listMax ((computeMelSpectrogram y sr n hop nm fmin fmax).flatten) = 0) := by
  refine ⟨?_, ?_, ?_⟩
  · rw [computeMel_eq y sr fmin fmax n hop nm hnm]
    simp [mkMat, numFrames]
  · intro row hrow
    rw [computeMel_eq y sr fmin fmax n hop nm hnm] at hrow
    obtain ⟨t, ht, rfl⟩ := List.mem_map.mp hrow
    simp
  · intro href
    rw [computeMel_eq y sr fmin fmax n hop nm hnm,
      clamped_listMax _ _ _ (numFrames_pos _ _ _) hnm]
    set refv := matAbsMax (melPowerMat y sr n hop nm fmin (resolveFmax fmax sr))
      with hrefv
    have hmaxr : max aminP refv = refv := max_eq_right href
    have hdble : ∀ a b, a < numFrames y.length n hop → b < nm →
        dbEnt (melBand y sr n hop nm fmin (resolveFmax fmax sr) b a) refv
          ≤ 0 := by
      intro a b ha hb
      have hxin : melBand y sr n hop nm fmin (resolveFmax fmax sr) b a
          ∈ (melPowerMat y sr n hop nm fmin (resolveFmax fmax sr)).flatten := by
        unfold melPowerMat
        exact mem_flatten_mkMat.mpr ⟨b, a, hb, ha, rfl⟩
      have habs : |melBand y sr n hop nm fmin (resolveFmax fmax sr) b a| ≤ refv :=
        abs_le_matAbsMax hxin
      unfold dbEnt
      rw [hmaxr]
      have hle : max aminP |melBand y sr n hop nm fmin (resolveFmax fmax sr) b a|
          ≤ refv := max_le href habs
      have := Real.logb_le_logb_of_le (by norm_num : (1 : ℝ) < 10)
        (max_aminP_pos _) hle
      linarith
    have hne : (melPowerMat y sr n hop nm fmin (resolveFmax fmax sr)).flatten
        ≠ [] := by
      unfold melPowerMat
      exact flatten_mkMat_ne_nil _ hnm (numFrames_pos _ _ _)
    obtain ⟨x, hx, hxe⟩ := matAbsMax_attained hne
    have hx2 := hx
    unfold melPowerMat at hx2
    obtain ⟨m0, t0, hm0, ht0, rfl⟩ := mem_flatten_mkMat.mp hx2
    have habsx : |melBand y sr n hop nm fmin (resolveFmax fmax sr) m0 t0|
        = refv := hxe.symm
    have hzero : dbEnt (melBand y sr n hop nm fmin (resolveFmax fmax sr) m0 t0)
        refv = 0 := by
      unfold dbEnt
      rw [habsx, hmaxr]
      ring
    apply le_antisymm
    · refine listMax_le (flatten_mkMat_ne_nil _ (numFrames_pos _ _ _) hnm)
        (fun z hz => ?_)
      obtain ⟨a, b, ha, hb, rfl⟩ := mem_flatten_mkMat.mp hz
      exact hdble a b ha hb
    · have hmem0 : dbEnt (melBand y sr n hop nm fmin (resolveFmax fmax sr) m0 t0)
          refv ∈ (mkMat (numFrames y.length n hop) nm (fun a b =>
            dbEnt (melBand y sr n hop nm fmin (resolveFmax fmax sr) b a)
              refv)).flatten :=
        mem_flatten_mkMat.mpr ⟨t0, m0, ht0, hm0, rfl⟩
      calc (0 : ℝ)
          = dbEnt (melBand y sr n hop nm fmin (resolveFmax fmax sr) m0 t0) refv :=
            hzero.symm
        _ ≤ _ := le_listMax hmem0

/-- C3 (witness): the mel shape law and adaptive reference at a concrete
call: the empty signal, `sample_rate = 16000`, `n_fft = 4`, `hop = 2`,
`n_mels = 1`. -/
theorem compute_mel_shape_and_adaptive_ref_witness :
    (computeMelSpectrogram [] 16000 4 2 1 0 none).length
        = 1 + (List.length ([] : List ℝ) + 2 * (4 / 2) - 4) / 2 ∧
    (∀ row ∈ computeMelSpectrogram [] 16000 4 2 1 0 none, row.length = 1) ∧
    (aminP ≤ matAbsMax (melPowerMat [] 16000 4 2 1 0 (resolveFmax none 16000)) →
      listMax ((computeMelSpectrogram [] 16000 4 2 1 0 none).flatten) = 0) :=
  compute_mel_shape_and_adaptive_ref [] 16000 0 none 4 2 1 one_pos

end
